import Mathlib

/-!
Verification of the YAML-subset parser of minisciath (src/minisciath.py).

The parser reads a restricted block-structured format (block sequences and
block mappings only) and builds a nested structure of ordered sequences and
insertion-ordered mappings.  We give a shallow embedding of the functions
involved (chiefly the private helpers named parse_line and
parse_yaml_subset_from_file in the source, here without the leading
underscore) and prove the frozen claims about them.

Strings are modelled as lists of characters; input is the list of lines of
the file (reading the file itself is abstracted away, exactly the list that
readlines returns).  Errors are modelled by an explicit error type: the
calls of the source helper parse_error become the parseError constructor
carrying the file name, the 1-based line number and the message, while the
raw Python exceptions that the code can also raise (ValueError from tuple
unpacking, IndexError and KeyError from container access on line 264,
291, 298 and 328 of the source) become their own constructors, carrying no
file or line information, just as the real exceptions do not.
-/

/-- Characters stripped by the Python methods strip, lstrip and rstrip when
called with no argument (the ASCII whitespace characters; other Unicode
whitespace is not modelled, the inputs of interest are ASCII). -/
def pyIsSpace (c : Char) : Bool :=
  c = ' ' || c = '\t' || c = '\n' || c = '\r' || c = '\x0b' || c = '\x0c'

/-- Python lstrip with no argument: drop leading whitespace. -/
def pyLstrip (l : List Char) : List Char := l.dropWhile pyIsSpace

/-- Python rstrip with no argument: drop trailing whitespace. -/
def pyRstrip (l : List Char) : List Char := (l.reverse.dropWhile pyIsSpace).reverse

/-- Python strip with no argument. -/
def pyStrip (l : List Char) : List Char := pyRstrip (pyLstrip l)

/-- Python rstrip with a newline argument: drop trailing newline characters
only (line 212 of the source). -/
def rstripNewlines (l : List Char) : List Char :=
  (l.reverse.dropWhile (fun c => c = '\n')).reverse

/-- Python split on a separator character with no maxsplit: the list of
chunks between occurrences of the separator.  It always returns at least
one chunk; a string with n separators yields n + 1 chunks. -/
def pySplit (sep : Char) : List Char → List (List Char)
  | [] => [[]]
  | c :: rest =>
    match pySplit sep rest with
    | [] => [[]]
    | g :: gs => if c = sep then [] :: g :: gs else (c :: g) :: gs

/-- Shorthand turning a string literal into the character-list model. -/
def lchars (s : String) : List Char := s.toList

/-- The errors the parser can raise.  parseError models the Exception built
by the source helper parse_error (file name, 1-based line number, message);
the other constructors model raw Python exceptions that carry no file or
line information. -/
inductive PyErr where
  | parseError (filename : List Char) (lineNumber : Nat) (message : List Char)
  | valueError (message : List Char)
  | indexError
  | keyError
  | attributeError
deriving DecidableEq

/-- The nested structure the parser builds: opaque scalar strings, ordered
sequences (Python lists) and insertion-ordered mappings (Python dicts,
modelled as association lists in insertion order). -/
inductive Node where
  | scalar (s : List Char)
  | seq (items : List Node)
  | map (entries : List (List Char × Node))

/-- Entry type tag, the one-character strings the source stores in the
variable entry_type: s for sequence entries, m for mapping entries. -/
inductive EType where
  | s
  | m
deriving DecidableEq

/-- The payload of one classified content line (lines 259 to 266 of the
source): a sequence entry with its scalar value, or a mapping entry with
key and value. -/
inductive EntryData where
  | eseq (value : List Char)
  | emap (key : List Char) (value : List Char)

/-- Entry type of a classified entry. -/
def etypeOf : EntryData → EType
  | .eseq _ => .s
  | .emap _ _ => .m

/-- The stack frame class of the source (lines 239 to 244). -/
structure StackFrame where
  entry_type : EType
  indent : Nat
  data : Node

/-- The mutable state of the parsing loop: the stack of open frames, with
the head of the list being the innermost frame (Python stack[-1]), and the
variable prev_key (the key inserted by the most recent mapping entry, used
when opening a nested container under a mapping). -/
structure ParserState where
  stack : List StackFrame
  prev_key : Option (List Char)

/-- Python truthiness of a node: nonempty string, list or dict. -/
def truthy : Node → Bool
  | .scalar s => !s.isEmpty
  | .seq items => !items.isEmpty
  | .map entries => !entries.isEmpty

/-- Assignment data[-1] = x on a Python list: replace the last element
(identity on the empty list, which the parser never reaches). -/
def setLast : List Node → Node → List Node
  | [], _ => []
  | [_], x => [x]
  | a :: rest, x => a :: setLast rest x

/-- Replace the value of the last entry of an association list. -/
def setLastValue : List (List Char × Node) → Node → List (List Char × Node)
  | [], _ => []
  | [(k, _)], v => [(k, v)]
  | e :: rest, v => e :: setLastValue rest v

/-- Python dict lookup on the insertion-ordered association list (keys are
unique in every state the parser reaches, so first match suffices). -/
def alistLookup (entries : List (List Char × Node)) (k : List Char) : Option Node :=
  match entries with
  | [] => none
  | (k1, v) :: rest => if k1 = k then some v else alistLookup rest k

/-- Python membership test key in dict. -/
def alistHasKey (entries : List (List Char × Node)) (k : List Char) : Bool :=
  (alistLookup entries k).isSome

/-- Python dict assignment d[k] = v: overwrite in place if the key is
present, append a new entry otherwise. -/
def alistSet (entries : List (List Char × Node)) (k : List Char) (v : Node) :
    List (List Char × Node) :=
  match entries with
  | [] => [(k, v)]
  | (k1, v1) :: rest =>
    if k1 = k then (k, v) :: rest else (k1, v1) :: alistSet rest k v

/-- Message of the indentation error raised by parse_line (line 216). -/
def indentSpacesMsg : List Char := ("Indent with spaces only").toList

/-- Message raised when the stack unwinds past the bottom (line 310). -/
def invalidIndentationMsg : List Char := ("Invalid indentation").toList

/-- Message raised on a sequence/mapping mix at one level (line 317). -/
def invalidEntryTypeMsg : List Char := ("Invalid entry type").toList

/-- Message raised on a duplicate mapping key (lines 323 to 324). -/
def dupKeyMsg (k : List Char) : List Char := ("Duplicate key: ").toList ++ k

/-- Message raised when nesting under a sequence line that already holds
data (line 294). -/
def nestSeqMsg : List Char :=
  ("Data not allowed on previous sequence line, when nesting").toList

/-- Message raised when nesting under a mapping line that already holds
data (line 301). -/
def nestMapMsg : List Char :=
  ("Data not allowed on previous mapping line, when nesting").toList

/-- Message of the ValueError raised by Python when tuple unpacking of
split gets a single chunk (line 264 with no colon in the content). -/
def notEnoughValuesMsg : List Char :=
  ("not enough values to unpack (expected 2, got 1)").toList

/-- Message of the ValueError raised by Python when tuple unpacking of
split gets three or more chunks (line 264 with two or more colons). -/
def tooManyValuesMsg : List Char :=
  ("too many values to unpack (expected 2)").toList

/-- The source helper parse_line (lines 209 to 221): strip the trailing
newline, measure the indentation as the leading whitespace, require it to
consist of spaces only, then drop everything from the first hash character
on and strip trailing whitespace.  Returns the pair of indent and content. -/
def parse_line (filename : List Char) (line_number : Nat) (line : List Char) :
    Except PyErr (Nat × List Char) :=
  let line_without_newline := rstripNewlines line
  let content0 := pyLstrip line_without_newline
  let indent := line_without_newline.length - content0.length
  if line_without_newline.take indent = List.replicate indent ' ' then
    .ok (indent, pyRstrip (content0.takeWhile (fun c => c ≠ '#')))
  else
    .error (.parseError filename line_number indentSpacesMsg)

/-- Classification of a nonempty content line (lines 259 to 266 of the
source).  A leading dash makes a sequence entry whose value is the stripped
remainder.  Otherwise the content is split on every colon and unpacked into
exactly two chunks, key and value, both stripped; zero or several colons
make the unpacking raise ValueError. -/
def classifyContent (content : List Char) : Except PyErr EntryData :=
  if content.head? = some '-' then
    .ok (.eseq (pyStrip (content.drop 1)))
  else
    match pySplit ':' content with
    | [k, v] => .ok (.emap (pyStrip k) (pyStrip v))
    | [_] => .error (.valueError notEnoughValuesMsg)
    | _ => .error (.valueError tooManyValuesMsg)

/-- Insertion of the classified entry into the frame now on top of the
stack (lines 315 to 326 of the source): the entry type must match the
frame, a sequence entry is appended, a mapping entry is rejected on a
duplicate key and inserted otherwise, and prev_key is updated. -/
def insertEntry (filename : List Char) (line_number : Nat) (e : EntryData)
    (curr : StackFrame) (rest : List StackFrame) : Except PyErr ParserState :=
  if etypeOf e ≠ curr.entry_type then
    .error (.parseError filename line_number invalidEntryTypeMsg)
  else
    match e, curr.data with
    | .eseq v, .seq items =>
      .ok ⟨⟨.s, curr.indent, .seq (items ++ [.scalar v])⟩ :: rest, none⟩
    | .emap k v, .map entries =>
      if alistHasKey entries k then
        .error (.parseError filename line_number (dupKeyMsg k))
      else
        .ok ⟨⟨.m, curr.indent, .map (alistSet entries k (.scalar v))⟩ :: rest, some k⟩
    | _, _ => .error .attributeError

/-- Opening a nested container when the line is more indented than the top
frame (lines 281 to 303 of the source).  A new empty container of the
entry kind of the line is created; the most recently filled slot of the
previous top frame (its last list item, or the value at prev_key) must be
falsy, otherwise the nesting error is raised; the new container is written
into that slot, a frame for it is pushed, and the entry is inserted into
it.  In Python the new container is linked into the parent by reference;
here the parent slot receives the empty container at push time and the
finished child is written over that same slot when the frame is popped
(see unwind and collapseStack), which is equivalent because the parent
frame is not touched while the child frame sits above it. -/
def openNested (filename : List Char) (line_number : Nat) (e : EntryData)
    (indent : Nat) (prev : StackFrame) (rest : List StackFrame)
    (prev_key : Option (List Char)) : Except PyErr ParserState :=
  let new_data : Node := match e with | .emap _ _ => .map [] | .eseq _ => .seq []
  match prev.entry_type with
  | .s =>
    match prev.data with
    | .seq items =>
      match items.getLast? with
      | none => .error .indexError
      | some slot =>
        if truthy slot then
          .error (.parseError filename line_number nestSeqMsg)
        else
          insertEntry filename line_number e ⟨etypeOf e, indent, new_data⟩
            (⟨prev.entry_type, prev.indent, .seq (setLast items new_data)⟩ :: rest)
    | _ => .error .indexError
  | .m =>
    match prev.data with
    | .map entries =>
      match prev_key with
      | none => .error .keyError
      | some pk =>
        match alistLookup entries pk with
        | none => .error .keyError
        | some slot =>
          if truthy slot then
            .error (.parseError filename line_number nestMapMsg)
          else
            insertEntry filename line_number e ⟨etypeOf e, indent, new_data⟩
              (⟨prev.entry_type, prev.indent, .map (alistSet entries pk new_data)⟩ :: rest)
    | _ => .error .keyError

/-- Write a finished child container over the most recently filled slot of
the parent frame (the slot that held the placeholder since the child was
pushed): the last item of a sequence, the value of the last inserted key
of a mapping. -/
def plugChild (parent : StackFrame) (child : Node) : StackFrame :=
  match parent.data with
  | .seq items => ⟨parent.entry_type, parent.indent, .seq (setLast items child)⟩
  | .map entries => ⟨parent.entry_type, parent.indent, .map (setLastValue entries child)⟩
  | .scalar s => ⟨parent.entry_type, parent.indent, .scalar s⟩

/-- The stack unwinding loop on a dedent (lines 305 to 313 of the source):
pop frames until one with exactly the matching indent is exposed, failing
if the stack empties first.  Each popped frame writes its finished data
over the placeholder slot of the frame below it (the Python original needs
no write because the link was made by reference when the child was
pushed). -/
def unwind (filename : List Char) (line_number : Nat) (indent : Nat)
    (child : StackFrame) : List StackFrame → Except PyErr (List StackFrame)
  | [] => .error (.parseError filename line_number invalidIndentationMsg)
  | parent :: rest =>
    let parent1 := plugChild parent child.data
    if indent = parent1.indent then .ok (parent1 :: rest)
    else unwind filename line_number indent parent1 rest

/-- Processing of one raw line (the body of the loop at lines 252 to 326
of the source): scan the line, skip it if the content is empty, classify
it, then either start the stack, insert at equal indent, open a nested
container at greater indent, or unwind at smaller indent and insert. -/
def processLine (filename : List Char) (line_number : Nat) (line : List Char)
    (st : ParserState) : Except PyErr ParserState :=
  match parse_line filename line_number line with
  | .error e => .error e
  | .ok (indent, content) =>
    if content.isEmpty then .ok st
    else
      match classifyContent content with
      | .error e => .error e
      | .ok e =>
        match st.stack with
        | [] =>
          match e with
          | .eseq v => .ok ⟨[⟨.s, indent, .seq [.scalar v]⟩], none⟩
          | .emap k v => .ok ⟨[⟨.m, indent, .map [(k, .scalar v)]⟩], some k⟩
        | curr :: rest =>
          if indent = curr.indent then
            insertEntry filename line_number e curr rest
          else if curr.indent < indent then
            openNested filename line_number e indent curr rest st.prev_key
          else
            match unwind filename line_number indent curr rest with
            | .error e2 => .error e2
            | .ok [] => .error .indexError
            | .ok (curr1 :: rest1) => insertEntry filename line_number e curr1 rest1

/-- The parsing loop over the remaining lines, carrying the 1-based number
of the next line. -/
def parseLinesFrom (filename : List Char) :
    List (List Char) → Nat → ParserState → Except PyErr ParserState
  | [], _, st => .ok st
  | l :: ls, n, st =>
    match processLine filename n l st with
    | .error e => .error e
    | .ok st1 => parseLinesFrom filename ls (n + 1) st1

/-- Fold the remaining open frames at end of input down into the bottom
frame and return its data (the Python original simply returns
stack[0].data, all links being shared references). -/
def collapseStack (top : StackFrame) : List StackFrame → Node
  | [] => top.data
  | parent :: rest => collapseStack (plugChild parent top.data) rest

/-- The source function parse_yaml_subset_from_file (lines 230 to 328),
with the file read abstracted to the list of its lines: run the loop from
the empty stack and return the data of the bottom frame; with an empty
stack the subscript stack[0] raises IndexError. -/
def parse_yaml_subset_from_file (filename : List Char) (lines : List (List Char)) :
    Except PyErr Node :=
  match parseLinesFrom filename lines 1 ⟨[], none⟩ with
  | .error e => .error e
  | .ok st =>
    match st.stack with
    | [] => .error .indexError
    | top :: rest => .ok (collapseStack top rest)

/-! ## Definitions used to state the claims -/

/-- The text before the first colon of a content line (the claim wording
for the key of a mapping entry). -/
def beforeColon (l : List Char) : List Char := l.takeWhile (fun c => c ≠ ':')

/-- The text after the first colon of a content line (the claim wording
for the value of a mapping entry). -/
def afterColon (l : List Char) : List Char := (l.dropWhile (fun c => c ≠ ':')).drop 1

/-- The slot of the most recently added item of a frame, exactly as the
nesting branch of the source reads it: the last appended item of a
sequence frame, or the value at prev_key of a mapping frame. -/
def nestSlot (fr : StackFrame) (pk : Option (List Char)) : Option Node :=
  match fr.entry_type, fr.data with
  | .s, .seq items => items.getLast?
  | .m, .map entries =>
    match pk with
    | none => none
    | some k => alistLookup entries k
  | _, _ => none

/-- The nesting error message raised for each kind of outer frame. -/
def nestMsg : EType → List Char
  | .s => nestSeqMsg
  | .m => nestMapMsg

/-- The container created for the first entry of a new nesting level,
already holding that entry. -/
def entryContainer : EntryData → Node
  | .eseq v => .seq [.scalar v]
  | .emap k v => .map [(k, .scalar v)]

/-- The empty container created when a nesting level is opened. -/
def emptyContainer : EntryData → Node
  | .eseq _ => .seq []
  | .emap _ _ => .map []

/-- The stack invariant of the claims: frame indents strictly increase
from the bottom of the stack to the top.  The head of the list is the top
frame, so along the list each later (lower) frame has a smaller indent. -/
def IndStrict (stack : List StackFrame) : Prop :=
  List.Pairwise (fun a b => b.indent < a.indent) stack

/-- Every mapping anywhere inside the node has pairwise distinct keys. -/
inductive NodupKeys : Node → Prop where
  | scalar (s : List Char) : NodupKeys (.scalar s)
  | seq (items : List Node) : (∀ n ∈ items, NodupKeys n) → NodupKeys (.seq items)
  | map (entries : List (List Char × Node)) :
      (entries.map Prod.fst).Nodup → (∀ p ∈ entries, NodupKeys p.2) →
      NodupKeys (.map entries)

/-- An input whose structural lines are exactly the given flat mapping
entries: every line either scans to empty content (blank or comment-only)
or scans to content at the single indent i0 that classifies as a mapping
entry, in file order. -/
inductive FlatMapLines (filename : List Char) (i0 : Nat) :
    List (List Char) → List (List Char × List Char) → Prop where
  | nil : FlatMapLines filename i0 [] []
  | blank (l : List Char) (i : Nat) (ls : List (List Char))
      (es : List (List Char × List Char)) :
      parse_line filename 1 l = .ok (i, []) →
      FlatMapLines filename i0 ls es →
      FlatMapLines filename i0 (l :: ls) es
  | entry (l : List Char) (c k v : List Char) (ls : List (List Char))
      (es : List (List Char × List Char)) :
      parse_line filename 1 l = .ok (i0, c) →
      classifyContent c = .ok (.emap k v) →
      FlatMapLines filename i0 ls es →
      FlatMapLines filename i0 (l :: ls) ((k, v) :: es)

/-! ## Closed theorems: counterexamples and concrete evaluations -/

/-- Claim C1, counterexample: on the four-line input of the claim, parsing
does not succeed; the first line is classified as a sequence entry whose
scalar value is the whole remainder, so the more-indented second line
fails with the nesting error at line 2. -/
theorem claim1_counterexample :
    parse_yaml_subset_from_file (lchars ("tests.yml"))
      [lchars ("- name: t1"), lchars ("  command: run1"),
       lchars ("- name: t2"), lchars ("  command: run2")] =
    .error (.parseError (lchars ("tests.yml")) 2 nestSeqMsg) := rfl

/-- Claim C1, amended: the compact four-line input fails at line 2 with
the nesting error; the same data written with each dash on its own line
parses to the claimed Sequence of exactly two Mappings, the first with
entries name, t1 and command, run1 and the second with entries name, t2
and command, run2, keys in that order. -/
theorem claim1_amended :
    parse_yaml_subset_from_file (lchars ("tests.yml"))
      [lchars ("-"), lchars ("  name: t1"), lchars ("  command: run1"),
       lchars ("-"), lchars ("  name: t2"), lchars ("  command: run2")] =
    .ok (.seq
      [.map [(lchars ("name"), .scalar (lchars ("t1"))),
             (lchars ("command"), .scalar (lchars ("run1")))],
       .map [(lchars ("name"), .scalar (lchars ("t2"))),
             (lchars ("command"), .scalar (lchars ("run2")))]]) := rfl

/-- Claim C2, counterexample: a mapping line with two colons does not keep
the later colon as part of the value; tuple unpacking of the full split
raises a ValueError that carries neither file name nor line number. -/
theorem claim2_counterexample :
    parse_yaml_subset_from_file (lchars ("tests.yml")) [lchars ("a: b: c")] =
    .error (.valueError tooManyValuesMsg) := rfl

/-- Claim C6, counterexample: an input with no structural content does not
fail with an error carrying the file name and a line number; the final
subscript on the empty stack raises a bare IndexError. -/
theorem claim6_counterexample :
    parse_yaml_subset_from_file (lchars ("tests.yml"))
      [lchars (""), lchars ("   "), lchars ("# note")] =
    .error .indexError := rfl

/-- Claim C8, counterexample: the two-line input parses, but inserting the
blank (whitespace-only) line consisting of one tab between the two entries
makes parsing fail at line 2, because the indent check runs before blank
lines are skipped and requires spaces only. -/
theorem claim8_counterexample :
    parse_yaml_subset_from_file (lchars ("tests.yml"))
      [lchars ("a: b"), lchars ("c: d")] =
      .ok (.map [(lchars ("a"), .scalar (lchars ("b"))),
                 (lchars ("c"), .scalar (lchars ("d")))]) ∧
    parse_yaml_subset_from_file (lchars ("tests.yml"))
      [lchars ("a: b"), lchars ("\t"), lchars ("c: d")] =
    .error (.parseError (lchars ("tests.yml")) 2 indentSpacesMsg) := ⟨rfl, rfl⟩

/-- Claim C9, counterexample: a backslash does not escape a hash; the
comment is stripped from the first hash regardless, so the line scans to
content ending at the backslash and the parsed value loses the hash and
everything after it. -/
theorem claim9_counterexample :
    parse_line (lchars ("tests.yml")) 1 (lchars ("k: a\\#b")) =
      .ok (0, lchars ("k: a\\")) ∧
    parse_yaml_subset_from_file (lchars ("tests.yml")) [lchars ("k: a\\#b")] =
      .ok (.map [(lchars ("k"), .scalar (lchars ("a\\")))]) := ⟨rfl, rfl⟩

/-- Claim C10, counterexample: a content line that begins with a colon and
contains a second colon is not classified successfully with an empty key;
the full split yields three chunks and unpacking raises ValueError. -/
theorem claim10_counterexample :
    classifyContent (lchars ("::")) = .error (.valueError tooManyValuesMsg) ∧
    parse_yaml_subset_from_file (lchars ("tests.yml")) [lchars ("::")] =
    .error (.valueError tooManyValuesMsg) := ⟨rfl, rfl⟩

/-! ## Helper lemmas -/

theorem pySplit_ne_nil (sep : Char) (l : List Char) : pySplit sep l ≠ [] := by
  cases l with
  | nil => simp [pySplit]
  | cons c rest =>
    simp only [pySplit]
    cases h : pySplit sep rest with
    | nil => simp
    | cons g gs =>
      by_cases hc : c = sep <;> simp [hc]

theorem pySplit_no_sep (sep : Char) (l : List Char) (h : sep ∉ l) :
    pySplit sep l = [l] := by
  induction l with
  | nil => rfl
  | cons c rest ih =>
    have hc : c ≠ sep := fun hcc => h (hcc ▸ List.mem_cons_self c rest)
    have hr : sep ∉ rest := fun hm => h (List.mem_cons_of_mem c hm)
    simp only [pySplit, ih hr]
    simp [hc]

theorem pySplit_append_sep (sep : Char) (a b : List Char) (h : sep ∉ a) :
    pySplit sep (a ++ sep :: b) = a :: pySplit sep b := by
  induction a with
  | nil =>
    simp only [List.nil_append, pySplit]
    cases hb : pySplit sep b with
    | nil => exact absurd hb (pySplit_ne_nil sep b)
    | cons g gs => simp
  | cons c a' ih =>
    have hc : c ≠ sep := fun hcc => h (hcc ▸ List.mem_cons_self c a')
    have ha : sep ∉ a' := fun hm => h (List.mem_cons_of_mem c hm)
    simp only [List.cons_append, pySplit, List.append_eq]
    rw [ih ha]
    dsimp only
    simp [hc]

theorem pySplit_length (sep : Char) (l : List Char) :
    (pySplit sep l).length = l.count sep + 1 := by
  induction l with
  | nil => simp [pySplit]
  | cons c rest ih =>
    simp only [pySplit]
    cases h : pySplit sep rest with
    | nil => exact absurd h (pySplit_ne_nil sep rest)
    | cons g gs =>
      rw [h] at ih
      dsimp only
      by_cases hc : c = sep
      · subst hc
        rw [if_pos rfl, List.count_cons_self]
        simp only [List.length_cons] at ih ⊢
        omega
      · rw [if_neg hc]
        have hcount : (c :: rest).count sep = rest.count sep := by
          simp [List.count_cons, hc]
        rw [hcount]
        simp only [List.length_cons] at ih ⊢
        omega

theorem alistLookup_set_self (es : List (List Char × Node)) (k : List Char) (v : Node) :
    alistLookup (alistSet es k v) k = some v := by
  induction es with
  | nil => simp [alistSet, alistLookup]
  | cons p rest ih =>
    obtain ⟨k1, v1⟩ := p
    by_cases hk : k1 = k
    · simp [alistSet, hk, alistLookup]
    · simp [alistSet, hk, alistLookup, ih]

theorem getLast?_setLast (l : List Node) (x : Node) (h : l ≠ []) :
    (setLast l x).getLast? = some x := by
  induction l with
  | nil => exact absurd rfl h
  | cons a rest ih =>
    cases rest with
    | nil => rfl
    | cons b rest' =>
      have hstep : setLast (a :: b :: rest') x = a :: setLast (b :: rest') x := rfl
      have hne : setLast (b :: rest') x ≠ [] := by cases rest' <;> simp [setLast]
      cases hs : setLast (b :: rest') x with
      | nil => exact absurd hs hne
      | cons y ys =>
        rw [hstep, hs, List.getLast?_cons_cons, ← hs]
        exact ih (by simp)

/-! ## Claim C10 -/

/-- Claim C10, amended: a content line that begins with a colon and
contains no further colon is classified successfully as a mapping entry
whose key is the empty string and whose value is the trimmed remainder;
no error is raised for the empty key.  (With a second colon present the
tuple unpacking raises ValueError instead, see the counterexample.) -/
theorem claim10_amended (rest : List Char) (h : ':' ∉ rest) :
    classifyContent (':' :: rest) = .ok (.emap [] (pyStrip rest)) := by
  simp only [classifyContent]
  rw [if_neg (by simp)]
  have hsplit : pySplit ':' (':' :: rest) = [[], rest] := by
    have := pySplit_append_sep ':' [] rest (by simp)
    simpa [pySplit_no_sep ':' rest h] using this
  rw [hsplit]
  rfl

/-- Witness for claim C10: the content line consisting of a colon and a
space-padded value classifies to the empty key and the trimmed value. -/
theorem claim10_witness :
    classifyContent (':' :: lchars (" v")) = .ok (.emap [] (lchars ("v"))) :=
  claim10_amended (lchars (" v")) (by decide)

theorem beforeColon_no_colon (l : List Char) : ':' ∉ beforeColon l := by
  induction l with
  | nil => simp [beforeColon]
  | cons c rest ih =>
    by_cases hc : c = ':'
    · simp [beforeColon, List.takeWhile_cons, hc]
    · simp only [beforeColon, List.takeWhile_cons] at *
      simp only [decide_eq_true_eq]
      rw [if_pos hc]
      intro hm
      rcases List.mem_cons.mp hm with h1 | h1
      · exact hc h1.symm
      · exact ih h1

theorem beforeColon_afterColon_eq (l : List Char) (h : ':' ∈ l) :
    l = beforeColon l ++ ':' :: afterColon l := by
  induction l with
  | nil => simp at h
  | cons c rest ih =>
    by_cases hc : c = ':'
    · subst hc
      simp [beforeColon, afterColon, List.takeWhile_cons, List.dropWhile_cons]
    · have hr : ':' ∈ rest := by
        rcases List.mem_cons.mp h with h1 | h1
        · exact absurd h1.symm hc
        · exact h1
      have := ih hr
      simp only [beforeColon, afterColon, List.takeWhile_cons, List.dropWhile_cons,
        decide_eq_true_eq, if_pos hc]
      rw [List.cons_append]
      exact congrArg (c :: ·) this

/-! ## Claim C2 -/

/-- Claim C2, amended: a non-blank, non-comment content line that does not
start with a dash is parsed as a mapping entry with the trimmed text
before and after the colon as key and value only when it contains exactly
one colon; with no colon, or with two or more colons (a later colon does
not remain part of the value), the tuple unpacking of the full split
raises a ValueError that carries neither the file name nor a line
number. -/
theorem claim2_amended (content : List Char) (hd : content.head? ≠ some '-') :
    (content.count ':' = 1 →
      classifyContent content =
        .ok (.emap (pyStrip (beforeColon content)) (pyStrip (afterColon content)))) ∧
    (content.count ':' = 0 →
      classifyContent content = .error (.valueError notEnoughValuesMsg)) ∧
    (2 ≤ content.count ':' →
      classifyContent content = .error (.valueError tooManyValuesMsg)) := by
  refine ⟨fun h1 => ?_, fun h0 => ?_, fun h2 => ?_⟩
  · have hmem : ':' ∈ content := by
      by_contra hnot
      rw [List.count_eq_zero_of_not_mem hnot] at h1
      exact absurd h1 (by simp)
    have hdec := beforeColon_afterColon_eq content hmem
    have hafter : ':' ∉ afterColon content := by
      intro hmm
      have hc := congrArg (List.count ':') hdec
      rw [List.count_append, List.count_cons_self,
        List.count_eq_zero_of_not_mem (beforeColon_no_colon content), h1] at hc
      have : 1 ≤ (afterColon content).count ':' := List.count_pos_iff.mpr hmm
      omega
    have hsp : pySplit ':' content = [beforeColon content, afterColon content] := by
      conv_lhs => rw [hdec]
      rw [pySplit_append_sep ':' _ _ (beforeColon_no_colon content),
        pySplit_no_sep ':' _ hafter]
    simp only [classifyContent, if_neg hd, hsp]
  · have hnot : ':' ∉ content := List.count_eq_zero.mp h0
    simp only [classifyContent, if_neg hd, pySplit_no_sep ':' content hnot]
  · have hlen : 3 ≤ (pySplit ':' content).length := by
      rw [pySplit_length]
      omega
    obtain ⟨g1, g2, g3, t3, hp⟩ :
        ∃ g1 g2 g3 t3, pySplit ':' content = g1 :: g2 :: g3 :: t3 := by
      cases h1 : pySplit ':' content with
      | nil => rw [h1] at hlen; simp at hlen
      | cons a t =>
        cases t with
        | nil => rw [h1] at hlen; simp at hlen
        | cons b t2 =>
          cases t2 with
          | nil => rw [h1] at hlen; simp at hlen
          | cons c t3 => exact ⟨a, b, c, t3, rfl⟩
    simp only [classifyContent, if_neg hd, hp]

/-- Witness for claim C2: a one-colon line classifies to key and value, a
colon-free line raises the not-enough ValueError, a two-colon line raises
the too-many ValueError. -/
theorem claim2_witness :
    classifyContent (lchars ("command: echo hi")) =
      .ok (.emap (lchars ("command")) (lchars ("echo hi"))) ∧
    classifyContent (lchars ("justaword")) = .error (.valueError notEnoughValuesMsg) ∧
    classifyContent (lchars ("time: 12:30")) = .error (.valueError tooManyValuesMsg) :=
  ⟨(claim2_amended (lchars ("command: echo hi")) (by decide)).1 (by decide),
   (claim2_amended (lchars ("justaword")) (by decide)).2.1 (by decide),
   (claim2_amended (lchars ("time: 12:30")) (by decide)).2.2 (by decide)⟩

/-! ## Claim C5 -/

/-- The value of prev_key after an entry is inserted: the key of a mapping
entry, cleared for a sequence entry. -/
def newPrevKey : EntryData → Option (List Char)
  | .eseq _ => none
  | .emap k _ => some k

/-- Claim C5: when a line is more indented than the top frame, a new empty
container of the entry kind of the line is created and linked into the
most recently added slot of the outer container; if that slot holds a
non-empty scalar, processing the line fails with the nesting error at that
line, so a stored scalar is never overwritten; if the slot holds the empty
scalar, processing succeeds, the outer slot now holds the new empty
container, and the new top frame carries the entry at the new indent. -/
theorem claim5 (f : List Char) (n : Nat) (line : List Char) (st : ParserState)
    (curr : StackFrame) (rest : List StackFrame) (i : Nat) (c : List Char)
    (e : EntryData) (s : List Char)
    (hstack : st.stack = curr :: rest)
    (hline : parse_line f n line = .ok (i, c))
    (hne : c ≠ [])
    (hcls : classifyContent c = .ok e)
    (hgt : curr.indent < i)
    (hslot : nestSlot curr st.prev_key = some (.scalar s)) :
    (s ≠ [] →
      processLine f n line st = .error (.parseError f n (nestMsg curr.entry_type))) ∧
    (s = [] → ∃ curr1,
      processLine f n line st =
        .ok ⟨⟨etypeOf e, i, entryContainer e⟩ :: curr1 :: rest, newPrevKey e⟩ ∧
      curr1.indent = curr.indent ∧ curr1.entry_type = curr.entry_type ∧
      nestSlot curr1 st.prev_key = some (emptyContainer e)) := by
  have hproc : processLine f n line st =
      openNested f n e i curr rest st.prev_key := by
    simp only [processLine, hline]
    rw [if_neg (by cases c with | nil => exact absurd rfl hne | cons a t => simp)]
    rw [hcls, hstack]
    dsimp only
    rw [if_neg (by omega), if_pos hgt]
  obtain ⟨et, ind, data⟩ := curr
  cases et with
  | s =>
    cases data with
    | scalar s0 => simp [nestSlot] at hslot
    | map entries => simp [nestSlot] at hslot
    | seq items =>
      simp only [nestSlot] at hslot
      have hnonnil : items ≠ [] := by
        intro h0
        rw [h0] at hslot
        simp at hslot
      constructor
      · intro hs
        rw [hproc]
        simp only [openNested, hslot]
        rw [if_pos (by cases s with | nil => exact absurd rfl hs | cons a t => rfl)]
        rfl
      · intro hs
        subst hs
        cases e with
        | eseq v =>
          refine ⟨⟨.s, ind, .seq (setLast items (Node.seq []))⟩, ?_, rfl, rfl, ?_⟩
          · rw [hproc]
            simp only [openNested, hslot]
            rw [if_neg (by simp [truthy])]
            rfl
          · simp only [nestSlot]
            exact getLast?_setLast items _ hnonnil
        | emap k v =>
          refine ⟨⟨.s, ind, .seq (setLast items (Node.map []))⟩, ?_, rfl, rfl, ?_⟩
          · rw [hproc]
            simp only [openNested, hslot]
            rw [if_neg (by simp [truthy])]
            rfl
          · simp only [nestSlot]
            exact getLast?_setLast items _ hnonnil
  | m =>
    cases data with
    | scalar s0 => simp [nestSlot] at hslot
    | seq items => simp [nestSlot] at hslot
    | map entries =>
      simp only [nestSlot] at hslot
      cases hpk : st.prev_key with
      | none => rw [hpk] at hslot; simp at hslot
      | some pk =>
        rw [hpk] at hslot
        simp only at hslot
        constructor
        · intro hs
          rw [hproc]
          simp only [openNested, hpk, hslot]
          rw [if_pos (by cases s with | nil => exact absurd rfl hs | cons a t => rfl)]
          rfl
        · intro hs
          subst hs
          cases e with
          | eseq v =>
            refine ⟨⟨.m, ind, .map (alistSet entries pk (Node.seq []))⟩, ?_, rfl, rfl, ?_⟩
            · rw [hproc]
              simp only [openNested, hpk, hslot]
              rw [if_neg (by simp [truthy])]
              rfl
            · simp only [nestSlot, hpk]
              exact alistLookup_set_self entries pk _
          | emap k v =>
            refine ⟨⟨.m, ind, .map (alistSet entries pk (Node.map []))⟩, ?_, rfl, rfl, ?_⟩
            · rw [hproc]
              simp only [openNested, hpk, hslot]
              rw [if_neg (by simp [truthy])]
              rfl
            · simp only [nestSlot, hpk]
              exact alistLookup_set_self entries pk _

/-- Witness for claim C5: with a sequence frame whose last item is the
non-empty scalar x, a more-indented mapping line fails with the sequence
nesting error; with the last item empty, it succeeds and opens an empty
mapping container in that slot. -/
theorem claim5_witness :
    processLine (lchars ("t.yml")) 2 (lchars ("  k: v"))
      ⟨[⟨.s, 0, .seq [.scalar (lchars ("x"))]⟩], none⟩ =
      .error (.parseError (lchars ("t.yml")) 2 nestSeqMsg) ∧
    (∃ curr1,
      processLine (lchars ("t.yml")) 2 (lchars ("  k: v"))
        ⟨[⟨.s, 0, .seq [.scalar []]⟩], none⟩ =
        .ok ⟨⟨.m, 2, .map [(lchars ("k"), .scalar (lchars ("v")))]⟩ :: curr1 :: [],
             some (lchars ("k"))⟩ ∧
      curr1.indent = 0 ∧ curr1.entry_type = .s ∧
      nestSlot curr1 none = some (.map [])) :=
  ⟨(claim5 (lchars ("t.yml")) 2 (lchars ("  k: v"))
      ⟨[⟨.s, 0, .seq [.scalar (lchars ("x"))]⟩], none⟩
      ⟨.s, 0, .seq [.scalar (lchars ("x"))]⟩ [] 2 (lchars ("k: v"))
      (.emap (lchars ("k")) (lchars ("v"))) (lchars ("x"))
      rfl rfl (by decide) rfl (by decide) rfl).1 (by decide),
   (claim5 (lchars ("t.yml")) 2 (lchars ("  k: v"))
      ⟨[⟨.s, 0, .seq [.scalar []]⟩], none⟩
      ⟨.s, 0, .seq [.scalar []]⟩ [] 2 (lchars ("k: v"))
      (.emap (lchars ("k")) (lchars ("v"))) []
      rfl rfl (by decide) rfl (by decide) rfl).2 rfl⟩

/-! ## Line-number irrelevance on the success path

The line number reaches the loop body only inside error values, so any
successful step or run is unchanged if the numbering changes. -/

theorem parse_line_ok_num (f : List Char) (n m : Nat) (l : List Char)
    (p : Nat × List Char) (h : parse_line f n l = .ok p) :
    parse_line f m l = .ok p := by
  simp only [parse_line] at h ⊢
  split at h
  case isTrue hcond => rw [if_pos hcond]; exact h
  case isFalse hcond => exact absurd h (by simp)

theorem insertEntry_ok_num (f : List Char) (n m : Nat) (e : EntryData)
    (curr : StackFrame) (rest : List StackFrame) (st1 : ParserState)
    (h : insertEntry f n e curr rest = .ok st1) :
    insertEntry f m e curr rest = .ok st1 := by
  obtain ⟨ct, ci, cd⟩ := curr
  cases e with
  | eseq v =>
    cases ct with
    | m => simp [insertEntry, etypeOf] at h
    | s =>
      cases cd with
      | scalar s0 => simp [insertEntry, etypeOf] at h
      | map entries => simp [insertEntry, etypeOf] at h
      | seq items =>
        simp only [insertEntry, etypeOf] at h ⊢
        simpa using h
  | emap k v =>
    cases ct with
    | s => simp [insertEntry, etypeOf] at h
    | m =>
      cases cd with
      | scalar s0 => simp [insertEntry, etypeOf] at h
      | seq items => simp [insertEntry, etypeOf] at h
      | map entries =>
        by_cases hk : alistHasKey entries k
        · simp [insertEntry, etypeOf, hk] at h
        · simp only [insertEntry, etypeOf, hk] at h ⊢
          simpa using h

theorem openNested_ok_num (f : List Char) (n m : Nat) (e : EntryData) (i : Nat)
    (prev : StackFrame) (rest : List StackFrame) (pk : Option (List Char))
    (st1 : ParserState) (h : openNested f n e i prev rest pk = .ok st1) :
    openNested f m e i prev rest pk = .ok st1 := by
  obtain ⟨pt, pi, pd⟩ := prev
  cases pt with
  | s =>
    cases pd with
    | scalar s0 => simp [openNested] at h
    | map entries => simp [openNested] at h
    | seq items =>
      simp only [openNested] at h ⊢
      cases hl : items.getLast? with
      | none => rw [hl] at h; exact absurd h (by simp)
      | some slot =>
        rw [hl] at h
        dsimp only at h ⊢
        by_cases ht : truthy slot
        · rw [if_pos ht] at h; exact absurd h (by simp)
        · rw [if_neg ht] at h ⊢
          exact insertEntry_ok_num f n m _ _ _ _ h
  | m =>
    cases pd with
    | scalar s0 => simp [openNested] at h
    | seq items => simp [openNested] at h
    | map entries =>
      cases pk with
      | none => simp [openNested] at h
      | some k0 =>
        simp only [openNested] at h ⊢
        cases hl : alistLookup entries k0 with
        | none => rw [hl] at h; exact absurd h (by simp)
        | some slot =>
          rw [hl] at h
          dsimp only at h ⊢
          by_cases ht : truthy slot
          · rw [if_pos ht] at h; exact absurd h (by simp)
          · rw [if_neg ht] at h ⊢
            exact insertEntry_ok_num f n m _ _ _ _ h

theorem unwind_ok_num (f : List Char) (n m : Nat) (i : Nat) (child : StackFrame)
    (stack : List StackFrame) (r : List StackFrame)
    (h : unwind f n i child stack = .ok r) : unwind f m i child stack = .ok r := by
  induction stack generalizing child with
  | nil => exact absurd h (by simp [unwind])
  | cons parent rest ih =>
    simp only [unwind] at h ⊢
    by_cases hc : i = (plugChild parent child.data).indent
    · rw [if_pos hc] at h ⊢; exact h
    · rw [if_neg hc] at h ⊢; exact ih _ h

theorem processLine_ok_num (f : List Char) (n m : Nat) (line : List Char)
    (st st1 : ParserState) (h : processLine f n line st = .ok st1) :
    processLine f m line st = .ok st1 := by
  unfold processLine at h ⊢
  cases hp : parse_line f n line with
  | error err => rw [hp] at h; exact absurd h (by simp)
  | ok p =>
    rw [hp] at h
    rw [parse_line_ok_num f n m line p hp]
    obtain ⟨i, c⟩ := p
    dsimp only at h ⊢
    by_cases hc : c.isEmpty
    · rw [if_pos hc] at h ⊢; exact h
    · rw [if_neg hc] at h ⊢
      cases hcl : classifyContent c with
      | error err => rw [hcl] at h; exact absurd h (by simp)
      | ok e =>
        rw [hcl] at h
        dsimp only at h ⊢
        cases hs : st.stack with
        | nil => rw [hs] at h; exact h
        | cons curr rest =>
          rw [hs] at h
          dsimp only at h ⊢
          by_cases h1 : i = curr.indent
          · rw [if_pos h1] at h ⊢
            exact insertEntry_ok_num f n m _ _ _ _ h
          · rw [if_neg h1] at h ⊢
            by_cases h2 : curr.indent < i
            · rw [if_pos h2] at h ⊢
              exact openNested_ok_num f n m _ _ _ _ _ _ h
            · rw [if_neg h2] at h ⊢
              cases hu : unwind f n i curr rest with
              | error err => rw [hu] at h; exact absurd h (by simp)
              | ok r =>
                rw [hu] at h
                rw [unwind_ok_num f n m i curr rest r hu]
                cases r with
                | nil => exact absurd h (by simp)
                | cons curr1 rest1 => exact insertEntry_ok_num f n m _ _ _ _ h

theorem parseLinesFrom_ok_num (f : List Char) (ls : List (List Char)) (n m : Nat)
    (st st1 : ParserState) (h : parseLinesFrom f ls n st = .ok st1) :
    parseLinesFrom f ls m st = .ok st1 := by
  induction ls generalizing n m st with
  | nil => exact h
  | cons l ls ih =>
    unfold parseLinesFrom at h ⊢
    cases hp : processLine f n l st with
    | error err => rw [hp] at h; exact absurd h (by simp)
    | ok st2 =>
      rw [hp] at h
      rw [processLine_ok_num f n m l st st2 hp]
      exact ih (n + 1) (m + 1) st2 h

theorem parseLinesFrom_append (f : List Char) (xs ys : List (List Char)) (n : Nat)
    (st : ParserState) :
    parseLinesFrom f (xs ++ ys) n st =
      match parseLinesFrom f xs n st with
      | .error e => .error e
      | .ok st1 => parseLinesFrom f ys (n + xs.length) st1 := by
  induction xs generalizing n st with
  | nil => simp [parseLinesFrom]
  | cons x xs ih =>
    simp only [List.cons_append, parseLinesFrom]
    cases hp : processLine f n x st with
    | error err => rfl
    | ok st2 =>
      dsimp only
      rw [show xs.append ys = xs ++ ys from rfl, ih (n + 1) st2]
      have hlen : n + (x :: xs).length = n + 1 + xs.length := by
        rw [List.length_cons]
        omega
      rw [hlen]

theorem processLine_blank (f : List Char) (n : Nat) (l : List Char) (i : Nat)
    (st : ParserState) (h : parse_line f 1 l = .ok (i, [])) :
    processLine f n l st = .ok st := by
  unfold processLine
  rw [parse_line_ok_num f 1 n l (i, []) h]
  rfl

theorem parseLinesFrom_cons (f : List Char) (l : List Char) (ls : List (List Char))
    (n : Nat) (st : ParserState) :
    parseLinesFrom f (l :: ls) n st =
      match processLine f n l st with
      | .error e => .error e
      | .ok st1 => parseLinesFrom f ls (n + 1) st1 := rfl

theorem parseLinesFrom_all_blank (f : List Char) :
    ∀ (lines : List (List Char)) (n : Nat) (st : ParserState),
      (∀ l ∈ lines, ∃ i, parse_line f 1 l = .ok (i, [])) →
      parseLinesFrom f lines n st = .ok st := by
  intro lines
  induction lines with
  | nil => intro n st _; rfl
  | cons l ls ih =>
    intro n st h
    obtain ⟨i, hi⟩ := h l (List.mem_cons_self l ls)
    rw [parseLinesFrom_cons, processLine_blank f n l i st hi]
    exact ih (n + 1) st (fun l2 hm => h l2 (List.mem_cons_of_mem l hm))

/-! ## Claim C6 -/

/-- Claim C6, amended: if every line of the input scans to empty content
(blank or comment-only), so the input has no structural content, then
parsing fails, but with a bare IndexError from the final subscript on the
empty stack, which carries neither the file name nor a line number. -/
theorem claim6_amended (f : List Char) (lines : List (List Char))
    (h : ∀ l ∈ lines, ∃ i, parse_line f 1 l = .ok (i, [])) :
    parse_yaml_subset_from_file f lines = .error .indexError := by
  unfold parse_yaml_subset_from_file
  rw [parseLinesFrom_all_blank f lines 1 ⟨[], none⟩ h]

/-- Witness for claim C6: an input of one comment line and one blank line
fails with IndexError. -/
theorem claim6_witness :
    parse_yaml_subset_from_file (lchars ("t.yml"))
      [lchars ("# only a comment"), lchars ("   ")] = .error .indexError :=
  claim6_amended (lchars ("t.yml")) [lchars ("# only a comment"), lchars ("   ")]
    (by
      intro l hl
      rcases List.mem_cons.mp hl with h1 | h1
      · exact ⟨0, by rw [h1]; rfl⟩
      · rcases List.mem_cons.mp h1 with h2 | h2
        · exact ⟨3, by rw [h2]; rfl⟩
        · simp at h2)

/-! ## Claim C8 -/

/-- Claim C8, amended: inserting a line that scans to empty content (a
blank or comment-only line whose leading whitespace consists of spaces
only; a tab-indented blank line instead fails the indent check, see the
counterexample) at any position of a successfully parsing input leaves
the parsed Document unchanged: such lines never affect the nesting
stack. -/
theorem claim8_amended (f : List Char) (pre post : List (List Char)) (b : List Char)
    (i : Nat) (doc : Node)
    (hb : parse_line f 1 b = .ok (i, []))
    (hok : parse_yaml_subset_from_file f (pre ++ post) = .ok doc) :
    parse_yaml_subset_from_file f (pre ++ b :: post) = .ok doc := by
  unfold parse_yaml_subset_from_file at hok ⊢
  rw [parseLinesFrom_append] at hok
  rw [parseLinesFrom_append]
  cases hpre : parseLinesFrom f pre 1 ⟨[], none⟩ with
  | error err => rw [hpre] at hok; exact absurd hok (by simp)
  | ok st1 =>
    rw [hpre] at hok
    dsimp only at hok ⊢
    rw [parseLinesFrom_cons, processLine_blank f (1 + pre.length) b i st1 hb]
    dsimp only
    cases hpost : parseLinesFrom f post (1 + pre.length) st1 with
    | error err => rw [hpost] at hok; exact absurd hok (by simp)
    | ok st2 =>
      rw [hpost] at hok
      dsimp only at hok
      rw [parseLinesFrom_ok_num f post (1 + pre.length) (1 + pre.length + 1) st1 st2 hpost]
      exact hok

/-- Witness for claim C8: inserting an indented comment line between the
two mapping entries leaves the parsed Document unchanged. -/
theorem claim8_witness :
    parse_yaml_subset_from_file (lchars ("t.yml"))
      [lchars ("a: b"), lchars ("  # note"), lchars ("c: d")] =
      .ok (.map [(lchars ("a"), .scalar (lchars ("b"))),
                 (lchars ("c"), .scalar (lchars ("d")))]) :=
  claim8_amended (lchars ("t.yml")) [lchars ("a: b")] [lchars ("c: d")]
    (lchars ("  # note")) 2
    (.map [(lchars ("a"), .scalar (lchars ("b"))),
           (lchars ("c"), .scalar (lchars ("d")))]) rfl rfl

/-! ## Claim C9 -/

theorem dropWhileLenLe (p : Char → Bool) (l : List Char) :
    (l.dropWhile p).length ≤ l.length := by
  induction l with
  | nil => simp
  | cons c rest ih =>
    rw [List.dropWhile_cons]
    by_cases hc : p c
    · rw [if_pos hc]; simp; omega
    · rw [if_neg hc]

theorem dropWhile_app_pos (p : Char → Bool) (a b : List Char)
    (h : a.dropWhile p ≠ []) : (a ++ b).dropWhile p = a.dropWhile p ++ b := by
  induction a with
  | nil => exact absurd rfl h
  | cons c rest ih =>
    rw [List.cons_append, List.dropWhile_cons, List.dropWhile_cons] at *
    by_cases hc : p c
    · simp only [if_pos hc] at h ⊢
      exact ih h
    · simp only [if_neg hc] at h ⊢
      rfl

theorem dropWhile_app_neg (p : Char → Bool) (a b : List Char)
    (h : a.dropWhile p = []) : (a ++ b).dropWhile p = b.dropWhile p := by
  induction a with
  | nil => rfl
  | cons c rest ih =>
    rw [List.cons_append, List.dropWhile_cons] at *
    by_cases hc : p c
    · rw [if_pos hc] at h ⊢
      exact ih h
    · rw [if_neg hc] at h
      exact absurd h (by simp)

theorem dropWhile_id_of_none (p : Char → Bool) (l : List Char)
    (h : ∀ x ∈ l, p x = false) : l.dropWhile p = l := by
  induction l with
  | nil => rfl
  | cons c rest ih =>
    rw [List.dropWhile_cons, if_neg (by rw [h c (List.mem_cons_self c rest)]; simp)]

theorem takeWhile_app_all (p : Char → Bool) (a b : List Char)
    (h : ∀ x ∈ a, p x = true) : (a ++ b).takeWhile p = a ++ b.takeWhile p := by
  induction a with
  | nil => rfl
  | cons c rest ih =>
    rw [List.cons_append, List.takeWhile_cons, if_pos (h c (List.mem_cons_self c rest)),
      List.cons_append]
    rw [ih (fun x hx => h x (List.mem_cons_of_mem c hx))]

theorem takeWhile_id_of_all (p : Char → Bool) (l : List Char)
    (h : ∀ x ∈ l, p x = true) : l.takeWhile p = l := by
  induction l with
  | nil => rfl
  | cons c rest ih =>
    rw [List.takeWhile_cons, if_pos (h c (List.mem_cons_self c rest))]
    rw [ih (fun x hx => h x (List.mem_cons_of_mem c hx))]

theorem mem_of_mem_dropWhile (p : Char → Bool) (l : List Char) (x : Char)
    (h : x ∈ l.dropWhile p) : x ∈ l := by
  induction l with
  | nil => simp at h
  | cons c rest ih =>
    rw [List.dropWhile_cons] at h
    by_cases hc : p c
    · rw [if_pos hc] at h
      exact List.mem_cons_of_mem c (ih h)
    · rw [if_neg hc] at h
      exact h

theorem rstripNewlines_no_nl (l : List Char) (h : '\n' ∉ l) :
    rstripNewlines l = l := by
  unfold rstripNewlines
  rw [dropWhile_id_of_none _ _ (by
    intro x hx
    have : x ∈ l := List.mem_reverse.mp hx
    simp only [decide_eq_false_iff_not]
    intro hh
    exact h (hh ▸ this))]
  exact List.reverse_reverse l

/-- Claim C9, amended: a comment always begins at the first hash character
(no escape exists: a backslash before the hash does not prevent it, see
the counterexample); the comment and the trailing whitespace before it are
stripped before classification.  Concretely, appending any comment (a
suffix starting with a hash) to a hash-free, newline-free line leaves the
line scan unchanged. -/
theorem claim9_amended (f : List Char) (n : Nat) (pre cmt : List Char)
    (hnp : '\n' ∉ pre) (hhp : '#' ∉ pre) (hnc : '\n' ∉ cmt)
    (hcmt : cmt = [] ∨ ∃ r, cmt = '#' :: r) :
    parse_line f n (pre ++ cmt) = parse_line f n pre := by
  rcases hcmt with hc0 | ⟨r, hr⟩
  · rw [hc0, List.append_nil]
  · subst hr
    have hnl : '\n' ∉ pre ++ '#' :: r := by
      intro hm
      rcases List.mem_append.mp hm with h1 | h1
      · exact hnp h1
      · exact hnc h1
    simp only [parse_line]
    rw [rstripNewlines_no_nl _ hnl, rstripNewlines_no_nl _ hnp]
    by_cases hlp : pyLstrip pre = []
    · have hlc : pyLstrip (pre ++ '#' :: r) = '#' :: r := by
        unfold pyLstrip at hlp ⊢
        rw [dropWhile_app_neg _ _ _ hlp, List.dropWhile_cons,
          if_neg (by simp [pyIsSpace])]
      rw [hlp, hlc]
      have hlen : (pre ++ '#' :: r).length - ('#' :: r).length = pre.length := by
        rw [List.length_append]; omega
      rw [hlen]
      simp only [List.length_nil, Nat.sub_zero]
      rw [List.take_left, List.take_length]
      by_cases hrep : pre = List.replicate pre.length ' '
      · rw [if_pos hrep, if_pos hrep]
        rw [List.takeWhile_cons, if_neg (by simp)]
        rfl
      · rw [if_neg hrep, if_neg hrep]
    · have hlc : pyLstrip (pre ++ '#' :: r) = pyLstrip pre ++ '#' :: r :=
        dropWhile_app_pos _ _ _ hlp
      rw [hlc]
      have hle : (pyLstrip pre).length ≤ pre.length := dropWhileLenLe _ _
      have hlen : (pre ++ '#' :: r).length - (pyLstrip pre ++ '#' :: r).length
          = pre.length - (pyLstrip pre).length := by
        rw [List.length_append, List.length_append]; omega
      rw [hlen]
      have hj : pre.length - (pyLstrip pre).length ≤ pre.length := by omega
      rw [List.take_append_of_le_length hj]
      by_cases hrep : pre.take (pre.length - (pyLstrip pre).length) =
          List.replicate (pre.length - (pyLstrip pre).length) ' '
      · rw [if_pos hrep, if_pos hrep]
        have hall : ∀ x ∈ pyLstrip pre, (fun c : Char => (decide (c ≠ '#'))) x = true := by
          intro x hx
          have hxp : x ∈ pre := mem_of_mem_dropWhile _ _ _ hx
          simp only [decide_eq_true_eq]
          intro hh
          exact hhp (hh ▸ hxp)
        rw [takeWhile_app_all _ _ _ hall, List.takeWhile_cons, if_neg (by simp)]
        rw [List.append_nil, takeWhile_id_of_all _ _ hall]
      · rw [if_neg hrep, if_neg hrep]

/-- Witness for claim C9: appending the comment to the entry line leaves
the scan unchanged. -/
theorem claim9_witness :
    parse_line (lchars ("t.yml")) 7 (lchars ("key: value   ") ++ lchars ("# note")) =
    parse_line (lchars ("t.yml")) 7 (lchars ("key: value   ")) :=
  claim9_amended (lchars ("t.yml")) 7 (lchars ("key: value   ")) (lchars ("# note"))
    (by decide) (by decide) (by decide) (Or.inr ⟨lchars (" note"), rfl⟩)

/-! ## Claim C7 -/

theorem plugChild_indent (parent : StackFrame) (child : Node) :
    (plugChild parent child).indent = parent.indent := by
  unfold plugChild
  cases parent.data <;> rfl

theorem insertEntry_ok_stack (f : List Char) (n : Nat) (e : EntryData)
    (curr : StackFrame) (rest : List StackFrame) (st1 : ParserState)
    (h : insertEntry f n e curr rest = .ok st1) :
    ∃ fr, st1.stack = fr :: rest ∧ fr.indent = curr.indent := by
  obtain ⟨ct, ci, cd⟩ := curr
  cases e with
  | eseq v =>
    cases ct with
    | m => simp [insertEntry, etypeOf] at h
    | s =>
      cases cd with
      | scalar s0 => simp [insertEntry, etypeOf] at h
      | map entries => simp [insertEntry, etypeOf] at h
      | seq items =>
        simp only [insertEntry, etypeOf] at h
        simp at h
        subst h
        exact ⟨_, rfl, rfl⟩
  | emap k v =>
    cases ct with
    | s => simp [insertEntry, etypeOf] at h
    | m =>
      cases cd with
      | scalar s0 => simp [insertEntry, etypeOf] at h
      | seq items => simp [insertEntry, etypeOf] at h
      | map entries =>
        by_cases hk : alistHasKey entries k
        · simp [insertEntry, etypeOf, hk] at h
        · simp only [insertEntry, etypeOf, hk] at h
          simp at h
          subst h
          exact ⟨_, rfl, rfl⟩

theorem openNested_ok_stack (f : List Char) (n : Nat) (e : EntryData) (i : Nat)
    (prev : StackFrame) (rest : List StackFrame) (pk : Option (List Char))
    (st1 : ParserState) (h : openNested f n e i prev rest pk = .ok st1) :
    ∃ fr prev1, st1.stack = fr :: prev1 :: rest ∧ fr.indent = i ∧
      prev1.indent = prev.indent := by
  obtain ⟨pt, pi, pd⟩ := prev
  cases pt with
  | s =>
    cases pd with
    | scalar s0 => simp [openNested] at h
    | map entries => simp [openNested] at h
    | seq items =>
      simp only [openNested] at h
      cases hl : items.getLast? with
      | none => rw [hl] at h; exact absurd h (by simp)
      | some slot =>
        rw [hl] at h
        dsimp only at h
        by_cases ht : truthy slot
        · rw [if_pos ht] at h; exact absurd h (by simp)
        · rw [if_neg ht] at h
          obtain ⟨fr, hst, hind⟩ := insertEntry_ok_stack _ _ _ _ _ _ h
          exact ⟨fr, _, hst, hind, rfl⟩
  | m =>
    cases pd with
    | scalar s0 => simp [openNested] at h
    | seq items => simp [openNested] at h
    | map entries =>
      cases pk with
      | none => simp [openNested] at h
      | some k0 =>
        simp only [openNested] at h
        cases hl : alistLookup entries k0 with
        | none => rw [hl] at h; exact absurd h (by simp)
        | some slot =>
          rw [hl] at h
          dsimp only at h
          by_cases ht : truthy slot
          · rw [if_pos ht] at h; exact absurd h (by simp)
          · rw [if_neg ht] at h
            obtain ⟨fr, hst, hind⟩ := insertEntry_ok_stack _ _ _ _ _ _ h
            exact ⟨fr, _, hst, hind, rfl⟩

theorem unwind_indStrict (f : List Char) (n : Nat) (i : Nat) :
    ∀ (stack : List StackFrame) (child : StackFrame) (r : List StackFrame),
      IndStrict (child :: stack) → unwind f n i child stack = .ok r →
      IndStrict r := by
  intro stack
  induction stack with
  | nil =>
    intro child r _ h
    exact absurd h (by simp [unwind])
  | cons parent rest ih =>
    intro child r h1 h2
    simp only [unwind] at h2
    have hpi := plugChild_indent parent child.data
    simp only [IndStrict, List.pairwise_cons] at h1
    obtain ⟨hchild, hlt, hrest⟩ := h1
    have hstrict : IndStrict (plugChild parent child.data :: rest) := by
      simp only [IndStrict, List.pairwise_cons]
      exact ⟨fun b hb => by rw [hpi]; exact hlt b hb, hrest⟩
    by_cases hc : i = (plugChild parent child.data).indent
    · rw [if_pos hc] at h2
      rw [← Except.ok.inj h2]
      exact hstrict
    · rw [if_neg hc] at h2
      exact ih (plugChild parent child.data) r hstrict h2

theorem processLine_indStrict (f : List Char) (n : Nat) (line : List Char)
    (st st1 : ParserState) (hinv : IndStrict st.stack)
    (h : processLine f n line st = .ok st1) : IndStrict st1.stack := by
  unfold processLine at h
  cases hp : parse_line f n line with
  | error err => rw [hp] at h; exact absurd h (by simp)
  | ok p =>
    rw [hp] at h
    obtain ⟨i, c⟩ := p
    dsimp only at h
    by_cases hc : c.isEmpty
    · rw [if_pos hc] at h
      rw [← Except.ok.inj h]
      exact hinv
    · rw [if_neg hc] at h
      cases hcl : classifyContent c with
      | error err => rw [hcl] at h; exact absurd h (by simp)
      | ok e =>
        rw [hcl] at h
        dsimp only at h
        cases hs : st.stack with
        | nil =>
          rw [hs] at h
          cases e with
          | eseq v =>
            rw [← Except.ok.inj h]
            simp [IndStrict]
          | emap k v =>
            rw [← Except.ok.inj h]
            simp [IndStrict]
        | cons curr rest =>
          rw [hs] at h hinv
          simp only [IndStrict, List.pairwise_cons] at hinv
          obtain ⟨hlt, hrest⟩ := hinv
          dsimp only at h
          by_cases h1 : i = curr.indent
          · rw [if_pos h1] at h
            obtain ⟨fr, hst, hind⟩ := insertEntry_ok_stack _ _ _ _ _ _ h
            rw [hst]
            simp only [IndStrict, List.pairwise_cons]
            exact ⟨fun b hb => by rw [hind]; exact hlt b hb, hrest⟩
          · rw [if_neg h1] at h
            by_cases h2 : curr.indent < i
            · rw [if_pos h2] at h
              obtain ⟨fr, prev1, hst, hfr, hprev⟩ :=
                openNested_ok_stack _ _ _ _ _ _ _ _ h
              rw [hst]
              simp only [IndStrict, List.pairwise_cons]
              refine ⟨?_, ?_, hrest⟩
              · intro b hb
                rcases List.mem_cons.mp hb with hb1 | hb1
                · rw [hb1, hprev, hfr]; exact h2
                · rw [hfr]
                  have := hlt b hb1
                  omega
              · intro b hb
                rw [hprev]
                exact hlt b hb
            · rw [if_neg h2] at h
              cases hu : unwind f n i curr rest with
              | error err => rw [hu] at h; exact absurd h (by simp)
              | ok r =>
                rw [hu] at h
                have hr : IndStrict r := by
                  refine unwind_indStrict f n i rest curr r ?_ hu
                  simp only [IndStrict, List.pairwise_cons]
                  exact ⟨hlt, hrest⟩
                cases r with
                | nil => exact absurd h (by simp)
                | cons curr1 rest1 =>
                  obtain ⟨fr, hst, hind⟩ := insertEntry_ok_stack _ _ _ _ _ _ h
                  simp only [IndStrict, List.pairwise_cons] at hr
                  obtain ⟨hlt1, hrest1⟩ := hr
                  rw [hst]
                  simp only [IndStrict, List.pairwise_cons]
                  exact ⟨fun b hb => by rw [hind]; exact hlt1 b hb, hrest1⟩

theorem parseLinesFrom_indStrict (f : List Char) :
    ∀ (lines : List (List Char)) (n : Nat) (st st1 : ParserState),
      IndStrict st.stack → parseLinesFrom f lines n st = .ok st1 →
      IndStrict st1.stack := by
  intro lines
  induction lines with
  | nil =>
    intro n st st1 hinv h
    rw [← Except.ok.inj h]
    exact hinv
  | cons l ls ih =>
    intro n st st1 hinv h
    rw [parseLinesFrom_cons] at h
    cases hp : processLine f n l st with
    | error err => rw [hp] at h; exact absurd h (by simp)
    | ok st2 =>
      rw [hp] at h
      exact ih (n + 1) st2 st1 (processLine_indStrict f n l st st2 hinv hp) h

/-- Claim C7: frame indents are strictly increasing from the bottom of the
stack to the top (the head of the stack list is the top frame): every
single successful line-processing step preserves the invariant from any
state satisfying it, and consequently the state after any number of
processed lines, starting from any state satisfying the invariant (in
particular the empty initial stack), satisfies it. -/
theorem claim7 :
    (∀ (f : List Char) (n : Nat) (line : List Char) (st st1 : ParserState),
      IndStrict st.stack → processLine f n line st = .ok st1 →
      IndStrict st1.stack) ∧
    (∀ (f : List Char) (lines : List (List Char)) (n : Nat) (st st1 : ParserState),
      IndStrict st.stack → parseLinesFrom f lines n st = .ok st1 →
      IndStrict st1.stack) :=
  ⟨processLine_indStrict, fun f lines => parseLinesFrom_indStrict f lines⟩

/-- Witness for claim C7: one step from the empty stack, and a two-line
run that opens a nested level, both end in states whose stack indents are
strictly increasing towards the top. -/
theorem claim7_witness :
    IndStrict [⟨.s, 0, .seq [.scalar (lchars ("a"))]⟩] ∧
    IndStrict [⟨.s, 2, .seq [.scalar (lchars ("x"))]⟩, ⟨.s, 0, .seq [.seq []]⟩] :=
  ⟨claim7.1 (lchars ("t.yml")) 1 (lchars ("- a")) ⟨[], none⟩
      ⟨[⟨.s, 0, .seq [.scalar (lchars ("a"))]⟩], none⟩ (List.Pairwise.nil) rfl,
   claim7.2 (lchars ("t.yml")) [lchars ("-"), lchars ("  - x")] 1 ⟨[], none⟩
      ⟨[⟨.s, 2, .seq [.scalar (lchars ("x"))]⟩, ⟨.s, 0, .seq [.seq []]⟩], none⟩
      (List.Pairwise.nil) rfl⟩

/-! ## Claim C3 -/

theorem classify_ok_ne_nil (c : List Char) (e : EntryData)
    (h : classifyContent c = .ok e) : c ≠ [] := by
  intro h0
  subst h0
  simp [classifyContent, pySplit] at h

theorem alistHasKey_eq_false (es : List (List Char × Node)) (k : List Char)
    (h : k ∉ es.map Prod.fst) : alistHasKey es k = false := by
  induction es with
  | nil => rfl
  | cons p rest ih =>
    obtain ⟨k1, v1⟩ := p
    simp only [List.map_cons, List.mem_cons] at h
    push_neg at h
    obtain ⟨hk1, hk2⟩ := h
    simp only [alistHasKey, alistLookup, if_neg (fun hh : k1 = k => hk1 hh.symm)]
    exact ih hk2

theorem alistSet_append (es : List (List Char × Node)) (k : List Char) (v : Node)
    (h : k ∉ es.map Prod.fst) : alistSet es k v = es ++ [(k, v)] := by
  induction es with
  | nil => rfl
  | cons p rest ih =>
    obtain ⟨k1, v1⟩ := p
    simp only [List.map_cons, List.mem_cons] at h
    push_neg at h
    obtain ⟨hk1, hk2⟩ := h
    simp only [alistSet, if_neg (fun hh : k1 = k => hk1 hh.symm), List.cons_append]
    rw [ih hk2]

theorem processLine_first_emap (f : List Char) (n : Nat) (line : List Char)
    (st : ParserState) (i : Nat) (c : List Char) (k v : List Char)
    (hline : parse_line f n line = .ok (i, c)) (hne : c ≠ [])
    (hcls : classifyContent c = .ok (.emap k v)) (hstack : st.stack = []) :
    processLine f n line st = .ok ⟨[⟨.m, i, .map [(k, .scalar v)]⟩], some k⟩ := by
  simp only [processLine, hline]
  rw [if_neg (by cases c with | nil => exact absurd rfl hne | cons a t => simp)]
  rw [hcls, hstack]

theorem processLine_insert (f : List Char) (n : Nat) (line : List Char)
    (st : ParserState) (i : Nat) (c : List Char) (e : EntryData)
    (curr : StackFrame) (rest : List StackFrame)
    (hline : parse_line f n line = .ok (i, c)) (hne : c ≠ [])
    (hcls : classifyContent c = .ok e) (hstack : st.stack = curr :: rest)
    (heq : i = curr.indent) :
    processLine f n line st = insertEntry f n e curr rest := by
  simp only [processLine, hline]
  rw [if_neg (by cases c with | nil => exact absurd rfl hne | cons a t => simp)]
  rw [hcls, hstack]
  dsimp only
  rw [if_pos heq]

theorem parseLinesFrom_flat (f : List Char) (i0 : Nat) :
    ∀ (lines : List (List Char)) (es : List (List Char × List Char)),
      FlatMapLines f i0 lines es →
      ∀ (n : Nat) (done : List (List Char × Node)) (pk : Option (List Char)),
      (done.map Prod.fst ++ es.map Prod.fst).Nodup →
      ∃ pk1, parseLinesFrom f lines n ⟨[⟨.m, i0, .map done⟩], pk⟩ =
        .ok ⟨[⟨.m, i0, .map (done ++ es.map (fun p => (p.1, Node.scalar p.2)))⟩], pk1⟩ := by
  intro lines es hrel
  induction hrel with
  | nil =>
    intro n done pk _
    exact ⟨pk, by simp [parseLinesFrom]⟩
  | blank l i ls es2 hpl hrel2 ih =>
    intro n done pk hnd
    rw [parseLinesFrom_cons, processLine_blank f n l i _ hpl]
    exact ih n.succ done pk hnd
  | entry l c k v ls es2 hpl hcls hrel2 ih =>
    intro n done pk hnd
    have hne := classify_ok_ne_nil c _ hcls
    have hnd1 : (done.map Prod.fst ++ k :: es2.map Prod.fst).Nodup := by
      simpa using hnd
    have hkey : k ∉ done.map Prod.fst := by
      intro hm
      exact (List.nodup_append.mp hnd1).2.2 hm (List.mem_cons_self _ _)
    rw [parseLinesFrom_cons,
      processLine_insert f n l _ i0 c (.emap k v) ⟨.m, i0, .map done⟩ []
        (parse_line_ok_num f 1 n l _ hpl) hne hcls rfl rfl]
    simp only [insertEntry, etypeOf]
    rw [if_neg (by simp)]
    rw [show alistHasKey done k = false from alistHasKey_eq_false done k hkey]
    rw [if_neg (by simp)]
    rw [alistSet_append done k _ hkey]
    have hnd2 : ((done ++ [(k, Node.scalar v)]).map Prod.fst ++ es2.map Prod.fst).Nodup := by
      simp only [List.map_append, List.map_cons, List.map_nil]
      simpa [List.append_assoc] using hnd1
    obtain ⟨pk1, hloop⟩ := ih (n + 1) (done ++ [(k, Node.scalar v)]) (some k) hnd2
    refine ⟨pk1, ?_⟩
    dsimp only
    rw [hloop]
    simp [List.append_assoc]

theorem parseLinesFrom_flat_start (f : List Char) (i0 : Nat) :
    ∀ (lines : List (List Char)) (es : List (List Char × List Char)),
      FlatMapLines f i0 lines es → (es.map Prod.fst).Nodup → es ≠ [] →
      ∀ n, ∃ pk1, parseLinesFrom f lines n ⟨[], none⟩ =
        .ok ⟨[⟨.m, i0, .map (es.map (fun p => (p.1, Node.scalar p.2)))⟩], pk1⟩ := by
  intro lines es hrel
  induction hrel with
  | nil =>
    intro _ hne _
    exact absurd rfl hne
  | blank l i ls es2 hpl hrel2 ih =>
    intro hnd hne n
    rw [parseLinesFrom_cons, processLine_blank f n l i _ hpl]
    exact ih hnd hne (n + 1)
  | entry l c k v ls es2 hpl hcls hrel2 ih =>
    intro hnd hne n
    have hnec := classify_ok_ne_nil c _ hcls
    rw [parseLinesFrom_cons,
      processLine_first_emap f n l _ i0 c k v
        (parse_line_ok_num f 1 n l _ hpl) hnec hcls rfl]
    dsimp only
    obtain ⟨pk1, hloop⟩ := parseLinesFrom_flat f i0 ls es2 hrel2 (n + 1)
      [(k, Node.scalar v)] (some k) (by simpa using hnd)
    refine ⟨pk1, ?_⟩
    rw [hloop]
    simp

/-- Claim C3: for every well-formed input whose non-blank, non-comment
lines are all mapping entries at one single indentation level (expressed
by the relation FlatMapLines between the raw lines and the classified
key/value pairs), with pairwise distinct keys and at least one entry,
parsing returns the Mapping whose entries appear in file order, each
value being the trimmed text after the colon of its entry (the value
produced by the classifier). -/
theorem claim3 (f : List Char) (i0 : Nat) (lines : List (List Char))
    (es : List (List Char × List Char))
    (hrel : FlatMapLines f i0 lines es)
    (hnodup : (es.map Prod.fst).Nodup) (hne : es ≠ []) :
    parse_yaml_subset_from_file f lines =
      .ok (.map (es.map (fun p => (p.1, Node.scalar p.2)))) := by
  obtain ⟨pk1, hloop⟩ := parseLinesFrom_flat_start f i0 lines es hrel hnodup hne 1
  unfold parse_yaml_subset_from_file
  rw [hloop]
  rfl

/-- Witness for claim C3: a two-entry flat mapping input, with a blank
line between the entries and a comment on the second entry, parses to the
Mapping with both entries in file order and trimmed values. -/
theorem claim3_witness :
    parse_yaml_subset_from_file (lchars ("t.yml"))
      [lchars ("name: test1"), lchars (""), lchars ("command: echo hi  # note")] =
      .ok (.map [(lchars ("name"), .scalar (lchars ("test1"))),
                 (lchars ("command"), .scalar (lchars ("echo hi")))]) := by
  have hrel : FlatMapLines (lchars ("t.yml")) 0
      [lchars ("name: test1"), lchars (""), lchars ("command: echo hi  # note")]
      [(lchars ("name"), lchars ("test1")), (lchars ("command"), lchars ("echo hi"))] := by
    refine FlatMapLines.entry _ (lchars ("name: test1")) _ _ _ _ rfl rfl ?_
    refine FlatMapLines.blank _ 0 _ _ rfl ?_
    refine FlatMapLines.entry _ (lchars ("command: echo hi")) _ _ _ _ rfl rfl ?_
    exact FlatMapLines.nil
  exact claim3 (lchars ("t.yml")) 0 _ _ hrel (by decide) (by decide)

/-! ## Claim C4 -/

theorem mem_setLast (l : List Node) (v : Node) (x : Node) (h : x ∈ setLast l v) :
    x ∈ l ∨ x = v := by
  induction l with
  | nil => simp [setLast] at h
  | cons a rest ih =>
    cases rest with
    | nil =>
      simp only [setLast, List.mem_singleton] at h
      exact Or.inr h
    | cons b rest2 =>
      have : setLast (a :: b :: rest2) v = a :: setLast (b :: rest2) v := rfl
      rw [this] at h
      rcases List.mem_cons.mp h with h1 | h1
      · exact Or.inl (h1 ▸ List.mem_cons_self a _)
      · rcases ih h1 with h2 | h2
        · exact Or.inl (List.mem_cons_of_mem a h2)
        · exact Or.inr h2

theorem setLastValue_keys (es : List (List Char × Node)) (v : Node) :
    (setLastValue es v).map Prod.fst = es.map Prod.fst := by
  induction es with
  | nil => rfl
  | cons p rest ih =>
    obtain ⟨k1, v1⟩ := p
    cases rest with
    | nil => rfl
    | cons q rest2 =>
      have : setLastValue ((k1, v1) :: q :: rest2) v =
          (k1, v1) :: setLastValue (q :: rest2) v := rfl
      rw [this, List.map_cons, List.map_cons, ih]

theorem mem_setLastValue (es : List (List Char × Node)) (v : Node)
    (p : List Char × Node) (h : p ∈ setLastValue es v) : p ∈ es ∨ p.2 = v := by
  induction es with
  | nil => simp [setLastValue] at h
  | cons q rest ih =>
    obtain ⟨k1, v1⟩ := q
    cases rest with
    | nil =>
      simp only [setLastValue, List.mem_singleton] at h
      subst h
      exact Or.inr rfl
    | cons q2 rest2 =>
      have : setLastValue ((k1, v1) :: q2 :: rest2) v =
          (k1, v1) :: setLastValue (q2 :: rest2) v := rfl
      rw [this] at h
      rcases List.mem_cons.mp h with h1 | h1
      · exact Or.inl (h1 ▸ List.mem_cons_self _ _)
      · rcases ih h1 with h2 | h2
        · exact Or.inl (List.mem_cons_of_mem _ h2)
        · exact Or.inr h2

theorem mem_alistSet_keys (es : List (List Char × Node)) (k : List Char) (v : Node)
    (x : List Char) (h : x ∈ (alistSet es k v).map Prod.fst) :
    x ∈ es.map Prod.fst ∨ x = k := by
  induction es with
  | nil =>
    simp only [alistSet, List.map_cons, List.map_nil, List.mem_singleton] at h
    exact Or.inr h
  | cons p rest ih =>
    obtain ⟨k1, v1⟩ := p
    by_cases hk : k1 = k
    · simp only [alistSet, if_pos hk, List.map_cons] at h
      rcases List.mem_cons.mp h with h1 | h1
      · exact Or.inr h1
      · exact Or.inl (by simp only [List.map_cons]; exact List.mem_cons_of_mem _ h1)
    · simp only [alistSet, if_neg hk, List.map_cons] at h
      rcases List.mem_cons.mp h with h1 | h1
      · exact Or.inl (by simp only [List.map_cons]; exact h1 ▸ List.mem_cons_self _ _)
      · rcases ih h1 with h2 | h2
        · exact Or.inl (by simp only [List.map_cons]; exact List.mem_cons_of_mem _ h2)
        · exact Or.inr h2

theorem alistSet_keys_nodup (es : List (List Char × Node)) (k : List Char) (v : Node)
    (h : (es.map Prod.fst).Nodup) : ((alistSet es k v).map Prod.fst).Nodup := by
  induction es with
  | nil => simp [alistSet]
  | cons p rest ih =>
    obtain ⟨k1, v1⟩ := p
    simp only [List.map_cons, List.nodup_cons] at h
    obtain ⟨hk1, hrest⟩ := h
    by_cases hk : k1 = k
    · subst hk
      have hset : alistSet ((k1, v1) :: rest) k1 v = (k1, v) :: rest := by
        simp [alistSet]
      rw [hset, List.map_cons, List.nodup_cons]
      exact ⟨hk1, hrest⟩
    · simp only [alistSet, if_neg hk, List.map_cons, List.nodup_cons]
      refine ⟨?_, ih hrest⟩
      intro hm
      rcases mem_alistSet_keys rest k v k1 hm with h2 | h2
      · exact hk1 h2
      · exact hk h2

theorem mem_alistSet (es : List (List Char × Node)) (k : List Char) (v : Node)
    (p : List Char × Node) (h : p ∈ alistSet es k v) : p ∈ es ∨ p.2 = v := by
  induction es with
  | nil =>
    simp only [alistSet, List.mem_singleton] at h
    subst h
    exact Or.inr rfl
  | cons q rest ih =>
    obtain ⟨k1, v1⟩ := q
    by_cases hk : k1 = k
    · simp only [alistSet, if_pos hk] at h
      rcases List.mem_cons.mp h with h1 | h1
      · subst h1; exact Or.inr rfl
      · exact Or.inl (List.mem_cons_of_mem _ h1)
    · simp only [alistSet, if_neg hk] at h
      rcases List.mem_cons.mp h with h1 | h1
      · exact Or.inl (h1 ▸ List.mem_cons_self _ _)
      · rcases ih h1 with h2 | h2
        · exact Or.inl (List.mem_cons_of_mem _ h2)
        · exact Or.inr h2

theorem plugChild_nodupKeys (parent : StackFrame) (child : Node)
    (hp : NodupKeys parent.data) (hc : NodupKeys child) :
    NodupKeys (plugChild parent child).data := by
  obtain ⟨pt, pi, pd⟩ := parent
  cases pd with
  | scalar s0 => exact hp
  | seq items =>
    cases hp with
    | seq _ hall =>
      refine NodupKeys.seq _ ?_
      intro x hx
      rcases mem_setLast items child x hx with h1 | h1
      · exact hall x h1
      · exact h1 ▸ hc
  | map entries =>
    cases hp with
    | map _ hkeys hall =>
      refine NodupKeys.map _ ?_ ?_
      · rw [setLastValue_keys]
        exact hkeys
      · intro p hp2
        rcases mem_setLastValue entries child p hp2 with h1 | h1
        · exact hall p h1
        · exact h1 ▸ hc

theorem insertEntry_framesOk (f : List Char) (n : Nat) (e : EntryData)
    (curr : StackFrame) (rest : List StackFrame) (st1 : ParserState)
    (hinv : ∀ fr ∈ curr :: rest, NodupKeys fr.data)
    (h : insertEntry f n e curr rest = .ok st1) :
    ∀ fr ∈ st1.stack, NodupKeys fr.data := by
  obtain ⟨ct, ci, cd⟩ := curr
  have hcurr : NodupKeys cd := hinv _ (List.mem_cons_self _ _)
  have hrest : ∀ fr ∈ rest, NodupKeys fr.data :=
    fun fr hf => hinv fr (List.mem_cons_of_mem _ hf)
  cases e with
  | eseq v =>
    cases ct with
    | m => simp [insertEntry, etypeOf] at h
    | s =>
      cases cd with
      | scalar s0 => simp [insertEntry, etypeOf] at h
      | map entries => simp [insertEntry, etypeOf] at h
      | seq items =>
        simp only [insertEntry, etypeOf] at h
        simp at h
        subst h
        intro fr hf
        rcases List.mem_cons.mp hf with h1 | h1
        · subst h1
          cases hcurr with
          | seq _ hall =>
            refine NodupKeys.seq _ ?_
            intro x hx
            rcases List.mem_append.mp hx with h2 | h2
            · exact hall x h2
            · rw [List.mem_singleton.mp h2]
              exact NodupKeys.scalar v
        · exact hrest fr h1
  | emap k v =>
    cases ct with
    | s => simp [insertEntry, etypeOf] at h
    | m =>
      cases cd with
      | scalar s0 => simp [insertEntry, etypeOf] at h
      | seq items => simp [insertEntry, etypeOf] at h
      | map entries =>
        by_cases hk : alistHasKey entries k
        · simp [insertEntry, etypeOf, hk] at h
        · simp only [insertEntry, etypeOf, hk] at h
          simp at h
          subst h
          intro fr hf
          rcases List.mem_cons.mp hf with h1 | h1
          · subst h1
            cases hcurr with
            | map _ hkeys hall =>
              refine NodupKeys.map _ ?_ ?_
              · exact alistSet_keys_nodup entries k _ hkeys
              · intro p hp2
                rcases mem_alistSet entries k _ p hp2 with h2 | h2
                · exact hall p h2
                · rw [h2]
                  exact NodupKeys.scalar v
          · exact hrest fr h1

theorem openNested_framesOk (f : List Char) (n : Nat) (e : EntryData) (i : Nat)
    (prev : StackFrame) (rest : List StackFrame) (pk : Option (List Char))
    (st1 : ParserState)
    (hinv : ∀ fr ∈ prev :: rest, NodupKeys fr.data)
    (h : openNested f n e i prev rest pk = .ok st1) :
    ∀ fr ∈ st1.stack, NodupKeys fr.data := by
  obtain ⟨pt, pi, pd⟩ := prev
  have hprev : NodupKeys pd := hinv _ (List.mem_cons_self _ _)
  have hrest : ∀ fr ∈ rest, NodupKeys fr.data :=
    fun fr hf => hinv fr (List.mem_cons_of_mem _ hf)
  cases pt with
  | s =>
    cases pd with
    | scalar s0 => simp [openNested] at h
    | map entries => simp [openNested] at h
    | seq items =>
      simp only [openNested] at h
      cases hl : items.getLast? with
      | none => rw [hl] at h; exact absurd h (by simp)
      | some slot =>
        rw [hl] at h
        dsimp only at h
        by_cases ht : truthy slot
        · rw [if_pos ht] at h; exact absurd h (by simp)
        · rw [if_neg ht] at h
          refine insertEntry_framesOk _ _ _ _ _ _ ?_ h
          intro fr hf
          rcases List.mem_cons.mp hf with h1 | h1
          · rw [h1]
            dsimp only
            cases e with
            | eseq v2 => exact NodupKeys.seq _ (by intro x hx; simp at hx)
            | emap k2 v2 => exact NodupKeys.map _ (by simp) (by intro p hp2; simp at hp2)
          · rcases List.mem_cons.mp h1 with h2 | h2
            · rw [h2]
              cases hprev with
              | seq _ hall =>
                refine NodupKeys.seq _ ?_
                intro x hx
                rcases mem_setLast items _ x hx with h3 | h3
                · exact hall x h3
                · rw [h3]
                  cases e with
                  | eseq v2 => exact NodupKeys.seq _ (by intro y hy; simp at hy)
                  | emap k2 v2 =>
                    exact NodupKeys.map _ (by simp) (by intro p hp2; simp at hp2)
            · exact hrest fr h2
  | m =>
    cases pd with
    | scalar s0 => simp [openNested] at h
    | seq items => simp [openNested] at h
    | map entries =>
      cases pk with
      | none => simp [openNested] at h
      | some k0 =>
        simp only [openNested] at h
        cases hl : alistLookup entries k0 with
        | none => rw [hl] at h; exact absurd h (by simp)
        | some slot =>
          rw [hl] at h
          dsimp only at h
          by_cases ht : truthy slot
          · rw [if_pos ht] at h; exact absurd h (by simp)
          · rw [if_neg ht] at h
            refine insertEntry_framesOk _ _ _ _ _ _ ?_ h
            intro fr hf
            rcases List.mem_cons.mp hf with h1 | h1
            · rw [h1]
              dsimp only
              cases e with
              | eseq v2 => exact NodupKeys.seq _ (by intro x hx; simp at hx)
              | emap k2 v2 => exact NodupKeys.map _ (by simp) (by intro p hp2; simp at hp2)
            · rcases List.mem_cons.mp h1 with h2 | h2
              · rw [h2]
                cases hprev with
                | map _ hkeys hall =>
                  refine NodupKeys.map _ ?_ ?_
                  · exact alistSet_keys_nodup entries k0 _ hkeys
                  · intro p hp2
                    rcases mem_alistSet entries k0 _ p hp2 with h3 | h3
                    · exact hall p h3
                    · rw [h3]
                      cases e with
                      | eseq v2 => exact NodupKeys.seq _ (by intro y hy; simp at hy)
                      | emap k2 v2 =>
                        exact NodupKeys.map _ (by simp) (by intro p2 hp3; simp at hp3)
              · exact hrest fr h2

theorem unwind_framesOk (f : List Char) (n : Nat) (i : Nat) :
    ∀ (stack : List StackFrame) (child : StackFrame) (r : List StackFrame),
      (∀ fr ∈ child :: stack, NodupKeys fr.data) →
      unwind f n i child stack = .ok r →
      ∀ fr ∈ r, NodupKeys fr.data := by
  intro stack
  induction stack with
  | nil =>
    intro child r _ h
    exact absurd h (by simp [unwind])
  | cons parent rest ih =>
    intro child r hinv h
    simp only [unwind] at h
    have hplug : NodupKeys (plugChild parent child.data).data :=
      plugChild_nodupKeys parent child.data
        (hinv parent (List.mem_cons_of_mem _ (List.mem_cons_self _ _)))
        (hinv child (List.mem_cons_self _ _))
    have hrest : ∀ fr ∈ rest, NodupKeys fr.data :=
      fun fr hf => hinv fr (List.mem_cons_of_mem _ (List.mem_cons_of_mem _ hf))
    by_cases hc : i = (plugChild parent child.data).indent
    · rw [if_pos hc] at h
      rw [← Except.ok.inj h]
      intro fr hf
      rcases List.mem_cons.mp hf with h1 | h1
      · exact h1 ▸ hplug
      · exact hrest fr h1
    · rw [if_neg hc] at h
      refine ih (plugChild parent child.data) r ?_ h
      intro fr hf
      rcases List.mem_cons.mp hf with h1 | h1
      · exact h1 ▸ hplug
      · exact hrest fr h1

theorem collapseStack_nodupKeys :
    ∀ (rest : List StackFrame) (top : StackFrame),
      (∀ fr ∈ top :: rest, NodupKeys fr.data) →
      NodupKeys (collapseStack top rest) := by
  intro rest
  induction rest with
  | nil =>
    intro top hinv
    exact hinv top (List.mem_cons_self _ _)
  | cons parent rest2 ih =>
    intro top hinv
    show NodupKeys (collapseStack (plugChild parent top.data) rest2)
    refine ih (plugChild parent top.data) ?_
    intro fr hf
    rcases List.mem_cons.mp hf with h1 | h1
    · refine h1 ▸ plugChild_nodupKeys parent top.data ?_ ?_
      · exact hinv parent (List.mem_cons_of_mem _ (List.mem_cons_self _ _))
      · exact hinv top (List.mem_cons_self _ _)
    · exact hinv fr (List.mem_cons_of_mem _ (List.mem_cons_of_mem _ h1))

theorem processLine_framesOk (f : List Char) (n : Nat) (line : List Char)
    (st st1 : ParserState)
    (hinv : ∀ fr ∈ st.stack, NodupKeys fr.data)
    (h : processLine f n line st = .ok st1) :
    ∀ fr ∈ st1.stack, NodupKeys fr.data := by
  unfold processLine at h
  cases hp : parse_line f n line with
  | error err => rw [hp] at h; exact absurd h (by simp)
  | ok p =>
    rw [hp] at h
    obtain ⟨i, c⟩ := p
    dsimp only at h
    by_cases hc : c.isEmpty
    · rw [if_pos hc] at h
      rw [← Except.ok.inj h]
      exact hinv
    · rw [if_neg hc] at h
      cases hcl : classifyContent c with
      | error err => rw [hcl] at h; exact absurd h (by simp)
      | ok e =>
        rw [hcl] at h
        dsimp only at h
        cases hs : st.stack with
        | nil =>
          rw [hs] at h
          cases e with
          | eseq v =>
            rw [← Except.ok.inj h]
            intro fr hf
            rw [List.mem_singleton.mp hf]
            exact NodupKeys.seq _ (by
              intro x hx
              rw [List.mem_singleton.mp hx]
              exact NodupKeys.scalar v)
          | emap k v =>
            rw [← Except.ok.inj h]
            intro fr hf
            rw [List.mem_singleton.mp hf]
            refine NodupKeys.map _ (by simp) ?_
            intro p hp2
            rw [List.mem_singleton.mp hp2]
            exact NodupKeys.scalar v
        | cons curr rest =>
          rw [hs] at h hinv
          dsimp only at h
          by_cases h1 : i = curr.indent
          · rw [if_pos h1] at h
            exact insertEntry_framesOk _ _ _ _ _ _ hinv h
          · rw [if_neg h1] at h
            by_cases h2 : curr.indent < i
            · rw [if_pos h2] at h
              exact openNested_framesOk _ _ _ _ _ _ _ _ hinv h
            · rw [if_neg h2] at h
              cases hu : unwind f n i curr rest with
              | error err => rw [hu] at h; exact absurd h (by simp)
              | ok r =>
                rw [hu] at h
                have hr : ∀ fr ∈ r, NodupKeys fr.data :=
                  unwind_framesOk f n i rest curr r hinv hu
                cases r with
                | nil => exact absurd h (by simp)
                | cons curr1 rest1 => exact insertEntry_framesOk _ _ _ _ _ _ hr h

theorem parseLinesFrom_framesOk (f : List Char) :
    ∀ (lines : List (List Char)) (n : Nat) (st st1 : ParserState),
      (∀ fr ∈ st.stack, NodupKeys fr.data) →
      parseLinesFrom f lines n st = .ok st1 →
      ∀ fr ∈ st1.stack, NodupKeys fr.data := by
  intro lines
  induction lines with
  | nil =>
    intro n st st1 hinv h
    rw [← Except.ok.inj h]
    exact hinv
  | cons l ls ih =>
    intro n st st1 hinv h
    rw [parseLinesFrom_cons] at h
    cases hp : processLine f n l st with
    | error err => rw [hp] at h; exact absurd h (by simp)
    | ok st2 =>
      rw [hp] at h
      exact ih (n + 1) st2 st1 (processLine_framesOk f n l st st2 hinv hp) h

theorem insertEntry_dupkey (f : List Char) (n : Nat) (k v : List Char)
    (curr1 : StackFrame) (rest1 : List StackFrame)
    (entries : List (List Char × Node))
    (htype : curr1.entry_type = .m) (hdata : curr1.data = .map entries)
    (hdup : alistHasKey entries k = true) :
    insertEntry f n (.emap k v) curr1 rest1 =
      .error (.parseError f n (dupKeyMsg k)) := by
  unfold insertEntry
  rw [htype]
  rw [if_neg (by simp [etypeOf])]
  rw [hdata]
  dsimp only
  rw [hdup]
  rw [if_pos rfl]

theorem processLine_dedent (f : List Char) (n : Nat) (line : List Char)
    (st : ParserState) (i : Nat) (c : List Char) (e : EntryData)
    (curr : StackFrame) (rest : List StackFrame)
    (curr1 : StackFrame) (rest1 : List StackFrame)
    (hline : parse_line f n line = .ok (i, c)) (hne : c ≠ [])
    (hcls : classifyContent c = .ok e) (hstack : st.stack = curr :: rest)
    (hlt : i < curr.indent)
    (hunw : unwind f n i curr rest = .ok (curr1 :: rest1)) :
    processLine f n line st = insertEntry f n e curr1 rest1 := by
  simp only [processLine, hline]
  rw [if_neg (by cases c with | nil => exact absurd rfl hne | cons a t => simp)]
  rw [hcls, hstack]
  dsimp only
  rw [if_neg (by omega), if_neg (by omega)]
  rw [hunw]

/-- Claim C4: whenever a mapping entry lands in the mapping frame
currently open at its level (at any depth and state) and its key is
already present in that mapping, processing the line fails with the
duplicate-key error at that line.  The entry reaches an existing mapping
frame by either of the two routes the engine has: at the indent of the
pre-line top frame, or on a dedent, after the unwind exposes the frame
with the matching indent (the third route, an indent increase, inserts
into a freshly created empty container, where no key can be present).
And no mapping anywhere inside a successfully returned Document contains
two entries with the same key. -/
theorem claim4 :
    (∀ (f : List Char) (n : Nat) (line : List Char) (st : ParserState)
       (i : Nat) (c : List Char) (k v : List Char) (curr : StackFrame)
       (rest : List StackFrame) (curr1 : StackFrame) (rest1 : List StackFrame)
       (entries : List (List Char × Node)),
      parse_line f n line = .ok (i, c) →
      classifyContent c = .ok (.emap k v) →
      st.stack = curr :: rest →
      ((i = curr.indent ∧ curr1 = curr ∧ rest1 = rest) ∨
       (i < curr.indent ∧ unwind f n i curr rest = .ok (curr1 :: rest1))) →
      curr1.entry_type = .m → curr1.data = .map entries →
      alistHasKey entries k = true →
      processLine f n line st = .error (.parseError f n (dupKeyMsg k))) ∧
    (∀ (f : List Char) (lines : List (List Char)) (d : Node),
      parse_yaml_subset_from_file f lines = .ok d → NodupKeys d) := by
  constructor
  · intro f n line st i c k v curr rest curr1 rest1 entries hline hcls hstack
      hroute htype hdata hdup
    rcases hroute with ⟨heq, hc1, hr1⟩ | ⟨hlt, hunw⟩
    · subst hc1
      subst hr1
      rw [processLine_insert f n line st i c (.emap k v) curr1 rest1 hline
        (classify_ok_ne_nil c _ hcls) hcls hstack heq]
      exact insertEntry_dupkey f n k v curr1 rest1 entries htype hdata hdup
    · rw [processLine_dedent f n line st i c (.emap k v) curr rest curr1 rest1
        hline (classify_ok_ne_nil c _ hcls) hcls hstack hlt hunw]
      exact insertEntry_dupkey f n k v curr1 rest1 entries htype hdata hdup
  · intro f lines d h
    unfold parse_yaml_subset_from_file at h
    cases hl : parseLinesFrom f lines 1 ⟨[], none⟩ with
    | error err => rw [hl] at h; exact absurd h (by simp)
    | ok st =>
      rw [hl] at h
      dsimp only at h
      have hfr : ∀ fr ∈ st.stack, NodupKeys fr.data :=
        parseLinesFrom_framesOk f lines 1 ⟨[], none⟩ st
          (by intro fr hf; simp at hf) hl
      cases hs : st.stack with
      | nil => rw [hs] at h; exact absurd h (by simp)
      | cons top rest =>
        rw [hs] at h
        dsimp only at h
        rw [← Except.ok.inj h]
        rw [hs] at hfr
        exact collapseStack_nodupKeys rest top hfr

/-- Witness for claim C4: the duplicate key name arriving at the indent
of the open mapping fails with the duplicate-key error; the duplicate key
a arriving on a dedent line (the state reached after the lines a: 1, b:
and an indented c: 2) also fails with the duplicate-key error after the
unwind, as the whole four-line input confirms end to end; and the
Document parsed from a nested two-line input has unique keys in every
mapping. -/
theorem claim4_witness :
    processLine (lchars ("t.yml")) 2 (lchars ("name: t2"))
      ⟨[⟨.m, 0, .map [(lchars ("name"), .scalar (lchars ("t1")))]⟩],
        some (lchars ("name"))⟩ =
      .error (.parseError (lchars ("t.yml")) 2 (dupKeyMsg (lchars ("name")))) ∧
    processLine (lchars ("t.yml")) 4 (lchars ("a: 3"))
      ⟨[⟨.m, 2, .map [(lchars ("c"), .scalar (lchars ("2")))]⟩,
        ⟨.m, 0, .map [(lchars ("a"), .scalar (lchars ("1"))),
                      (lchars ("b"), .map [])]⟩],
        some (lchars ("c"))⟩ =
      .error (.parseError (lchars ("t.yml")) 4 (dupKeyMsg (lchars ("a")))) ∧
    parse_yaml_subset_from_file (lchars ("t.yml"))
      [lchars ("a: 1"), lchars ("b:"), lchars ("  c: 2"), lchars ("a: 3")] =
      .error (.parseError (lchars ("t.yml")) 4 (dupKeyMsg (lchars ("a")))) ∧
    NodupKeys (.seq [.map [(lchars ("k"), .scalar (lchars ("v")))]]) :=
  ⟨claim4.1 (lchars ("t.yml")) 2 (lchars ("name: t2"))
      ⟨[⟨.m, 0, .map [(lchars ("name"), .scalar (lchars ("t1")))]⟩],
        some (lchars ("name"))⟩
      0 (lchars ("name: t2")) (lchars ("name")) (lchars ("t2"))
      ⟨.m, 0, .map [(lchars ("name"), .scalar (lchars ("t1")))]⟩ []
      ⟨.m, 0, .map [(lchars ("name"), .scalar (lchars ("t1")))]⟩ []
      [(lchars ("name"), .scalar (lchars ("t1")))]
      rfl rfl rfl (Or.inl ⟨rfl, rfl, rfl⟩) rfl rfl rfl,
   claim4.1 (lchars ("t.yml")) 4 (lchars ("a: 3"))
      ⟨[⟨.m, 2, .map [(lchars ("c"), .scalar (lchars ("2")))]⟩,
        ⟨.m, 0, .map [(lchars ("a"), .scalar (lchars ("1"))),
                      (lchars ("b"), .map [])]⟩],
        some (lchars ("c"))⟩
      0 (lchars ("a: 3")) (lchars ("a")) (lchars ("3"))
      ⟨.m, 2, .map [(lchars ("c"), .scalar (lchars ("2")))]⟩
      [⟨.m, 0, .map [(lchars ("a"), .scalar (lchars ("1"))),
                     (lchars ("b"), .map [])]⟩]
      ⟨.m, 0, .map [(lchars ("a"), .scalar (lchars ("1"))),
                    (lchars ("b"), .map [(lchars ("c"), .scalar (lchars ("2")))])]⟩
      []
      [(lchars ("a"), .scalar (lchars ("1"))),
       (lchars ("b"), .map [(lchars ("c"), .scalar (lchars ("2")))])]
      rfl rfl rfl (Or.inr ⟨by decide, rfl⟩) rfl rfl rfl,
   rfl,
   claim4.2 (lchars ("t.yml")) [lchars ("-"), lchars ("  k: v")]
      (.seq [.map [(lchars ("k"), .scalar (lchars ("v")))]]) rfl⟩
